import Mathlib

/-!
Verification development for the heksher-py rule resolution/collation engine,
the setting read API, the main-client handover protocol, and the per-setting
update pipeline.

The definitions below are shallow embeddings of the Python source:
  * heksher/util.py            (zip_supersequence)
  * heksher/clients/util.py    (RuleBranch, collate_rules)
  * heksher/setting.py         (Setting.get, RuleMatch, RuleSet.resolve)
  * heksher/clients/subclasses.py (V1APIClient._set_as_main,
                                   V1APIClient._update_settings_from_query)

Python dicts are embedded as insertion-ordered association lists; Python `==`
on nested dicts becomes the extensional relation `EqNested`.  Python
exceptions become `Option`/`Except` results.  Dynamic Python values held by a
setting are embedded as `PyVal`, with Python `None` as `PyVal.none`.
-/

namespace Heksher

/-- Lookup in an insertion-ordered association list with `Option String` keys,
mirroring `dict.__getitem__` / `in` on a rule-branch dict. -/
def dictLookup {α : Type} (m : List (Option String × α)) (k : Option String) : Option α :=
  match m with
  | [] => none
  | (k1, v1) :: rest => if k1 = k then some v1 else dictLookup rest k

/-- `d[k] = v` on an insertion-ordered dict: replace the value in place if the
key is present, otherwise append the new pair (Python dict insertion order). -/
def dictSet {α : Type} (m : List (Option String × α)) (k : Option String) (v : α) :
    List (Option String × α) :=
  match m with
  | [] => [(k, v)]
  | (k1, v1) :: rest => if k1 = k then (k, v) :: rest else (k1, v1) :: dictSet rest k v

/-- `RuleBranch` from heksher/clients/util.py: a nested collation of rules,
either a mapping from (specific value or wildcard `none`) to sub-branches, or
a stored leaf value. -/
inductive RuleBranch (T : Type) : Type where
  | leaf (v : T)
  | node (children : List (Option String × RuleBranch T))

/-- `zip_supersequence` from heksher/util.py, specialised the way
`collate_rules` uses it: walk the dimension list `keys`; whenever the next
pending condition's dimension matches the current key, consume it (yielding
its value), otherwise yield the wildcard `none`.  Returns `none` when the
conditions are not a subsequence of `keys` (Python raises AssertionError). -/
def zipSuperseq (keys : List String) (conds : List (String × String)) :
    Option (List (Option String)) :=
  match keys, conds with
  | ks, [] => some (ks.map fun _ => none)
  | [], _ :: _ => none
  | k :: ks, c :: cs =>
      if c.1 = k then (zipSuperseq ks cs).map (fun t => some c.2 :: t)
      else (zipSuperseq ks (c :: cs)).map (fun t => none :: t)

/-- The root-to-leaf key path a rule's conditions collate to, for a fixed
dimension list. -/
def rulePath (keys : List String) (conds : List (String × String)) :
    Option (List (Option String)) :=
  zipSuperseq keys conds

/-- The per-rule walk of `collate_rules`: descend/create children keyed by the
path entries (Python `setdefault(child_key, {})` on all but the last entry),
then store the leaf value at the final key (overwriting any previous leaf —
last-writer-wins).  The `some (.leaf _)` fallback when descending mid-path is
unreachable for the equal-length paths `collate_rules` produces (Python would
raise there, having found a non-dict where a dict is expected). -/
def insertPath {T : Type} (m : List (Option String × RuleBranch T)) :
    List (Option String) → T → List (Option String × RuleBranch T)
  | [], _ => m
  | [k], v => dictSet m k (.leaf v)
  | k :: k2 :: rest, v =>
      let child : List (Option String × RuleBranch T) :=
        match dictLookup m k with
        | some (.node cm) => cm
        | _ => []
      dictSet m k (.node (insertPath child (k2 :: rest) v))

/-- Compute the collation paths of all rules, failing (Python AssertionError)
if any rule's conditions are not an ordered subsequence of `keys`. -/
def pathRules (keys : List String) :
    List (List (String × String) × T) → Option (List (List (Option String) × T))
  | [] => some []
  | r :: rest =>
      match rulePath keys r.1, pathRules keys rest with
      | some p, some prs => some ((p, r.2) :: prs)
      | _, _ => none

/-- `collate_rules` from heksher/clients/util.py.  With no dimension keys the
result is the single rule's value (`none` models the AssertionError on a rule
with conditions; with more than one rule, only the first two are examined and
the second one's value is returned); with no rules at all the empty dict
sentinel `{}` is returned.  With keys, each rule is walked into the tree in
input order.  (Python interleaves path computation with insertion; an
assertion failure there aborts the whole call, so the observable result is
the same as computing all paths first.) -/
def collate_rules (keys : List String) (rules : List (List (String × String) × T)) :
    Option (RuleBranch T) :=
  match keys with
  | [] =>
      match rules with
      | [] => some (.node [])
      | [(conds, ret)] => if conds.isEmpty then some (.leaf ret) else none
      | (c1, _) :: (c2, r2) :: _ =>
          if c1.isEmpty then (if c2.isEmpty then some (.leaf r2) else none) else none
  | _ :: _ =>
      match pathRules keys rules with
      | none => none
      | some prs => some (.node (prs.foldl (fun m pr => insertPath m pr.1 pr.2) []))

/-- `RuleMatch` from heksher/setting.py.  `value` is the object found at the
leaf position — in Python this is whatever `current` is when the depth runs
out, so it is embedded as a `RuleBranch` (a `.leaf` embeds a plain value; a
`.node` embeds a dict object, reachable only through the zero-dimension
no-rules sentinel). -/
structure RuleMatch (T : Type) : Type where
  value : RuleBranch T
  exact_match_depth : Int

/-- Lookup in the context namespace (a Python dict keyed by strings). -/
def nsGet (ns : List (String × String)) (k : String) : Option String :=
  match ns with
  | [] => none
  | (k1, v) :: rest => if k1 = k then some v else nsGet rest k

/-- The inner `_resolve` of `RuleSet.resolve` (heksher/setting.py).  `.error`
models a raised exception: the RuntimeError for a context feature missing
from the namespace, or the failed `isinstance(current, Mapping)` assertion.
At exhausted depth the current branch is returned as the match value, as in
Python.  Both children are tried; when both yield a match, the one with the
greater `exact_match_depth` wins, with ties kept by the exact child (Python
`max` keeps its first argument on ties). -/
def resolveAux {T : Type} (ns : List (String × String)) :
    RuleBranch T → List String → Nat → Int → Except Unit (Option (RuleMatch T))
  | current, [], _, emd => .ok (some ⟨current, emd⟩)
  | .leaf _, _ :: _, _, _ => .error ()
  | .node m, f :: rest, depth, emd =>
      match nsGet ns f with
      | none => .error ()
      | some fv =>
          match (match dictLookup m (some fv) with
                 | none => Except.ok none
                 | some child => resolveAux ns child rest (depth + 1) (Int.ofNat depth)) with
          | .error e => .error e
          | .ok ex =>
              match (match dictLookup m none with
                     | none => Except.ok none
                     | some child => resolveAux ns child rest (depth + 1) emd) with
              | .error e => .error e
              | .ok wc =>
                  .ok (match ex, wc with
                       | some e, some w =>
                           some (if e.exact_match_depth < w.exact_match_depth then w else e)
                       | some e, none => some e
                       | none, w => w)

/-- `RuleSet.resolve` (heksher/setting.py).  `.ok none` models the raised
`NoMatchError` (`if not ret`), `.ok (some b)` a returned match value (the
branch at the leaf position), `.error` a propagated RuntimeError/assertion.
The weakly-referenced client (whose `context_namespace` merges defaults into
the caller's namespace upstream of this algorithm) is modelled as collected:
`ns` is the namespace that reaches the resolution loop. -/
def resolve {T : Type} (root : RuleBranch T) (features : List String)
    (ns : List (String × String)) : Except Unit (Option (RuleBranch T)) :=
  match resolveAux ns root features 0 (-1) with
  | .error e => .error e
  | .ok none => .ok none
  | .ok (some rm) => .ok (some rm.value)

/-- Descend along a key path, mirroring repeated `d[k]` indexing into a
nested rule-branch dict. -/
def descend {T : Type} : RuleBranch T → List (Option String) → Option (RuleBranch T)
  | b, [] => some b
  | .leaf _, _ :: _ => none
  | .node m, k :: ks =>
      match dictLookup m k with
      | none => none
      | some c => descend c ks

/-- What a key path leads to inside a tree: `none` if the path is absent,
`some none` if it reaches an inner mapping, `some (some v)` if it reaches the
leaf value `v`. -/
def kindAt {T : Type} (t : RuleBranch T) (p : List (Option String)) : Option (Option T) :=
  match descend t p with
  | none => none
  | some (.node _) => some none
  | some (.leaf v) => some (some v)

/-- Extensional equality of rule branches as nested mappings: two nested
dicts are `==` in Python exactly when every key path leads to the same kind
of entry with the same leaf values. -/
def EqNested {T : Type} (t1 t2 : RuleBranch T) : Prop :=
  ∀ p, kindAt t1 p = kindAt t2 p

/-- Computable prefix test on key paths. -/
def isPre : List (Option String) → List (Option String) → Bool
  | [], _ => true
  | _ :: _, [] => false
  | a :: as, b :: bs => decide (a = b) && isPre as bs

mutual

/-- A branch is uniform at depth `n` when every root-to-leaf path has length
exactly `n`: leaves sit only at depth `n` and mappings only above it. -/
def uniform {T : Type} : Nat → RuleBranch T → Bool
  | 0, .leaf _ => true
  | n + 1, .node m => uniformChildren n m
  | _, _ => false

/-- All children of a node are uniform at the next depth down. -/
def uniformChildren {T : Type} : Nat → List (Option String × RuleBranch T) → Bool
  | _, [] => true
  | n, kv :: rest => uniform n kv.2 && uniformChildren n rest

end

/-- Each key of an association list occurs only once, mirroring the dict
guarantee of at most one child per concrete value and one wildcard child. -/
def keysUnique {T : Type} : List (Option String × RuleBranch T) → Bool
  | [] => true
  | (k, _) :: rest => (dictLookup rest k).isNone && keysUnique rest

mutual

/-- Every node of a tree has pairwise-distinct child keys. -/
def treeKeysOk {T : Type} : RuleBranch T → Bool
  | .leaf _ => true
  | .node m => keysUnique m && childrenKeysOk m

/-- `treeKeysOk` over all children of a node. -/
def childrenKeysOk {T : Type} : List (Option String × RuleBranch T) → Bool
  | [] => true
  | kv :: rest => treeKeysOk kv.2 && childrenKeysOk rest

end

/-- The value of the last rule (in input order) whose collation path is `p`:
the last-writer-wins semantics of leaf conflicts. -/
def lastPathVal {T : Type} : List (List (Option String) × T) → List (Option String) → Option T
  | [], _ => none
  | pr :: rest, p =>
      match lastPathVal rest p with
      | some v => some v
      | none => if pr.1 = p then some pr.2 else none

/-- Dynamic Python values stored in settings.  `PyVal.none` embeds Python
`None`; since `Setting.server_default_value: Optional[T] = None` stores the
absent state and a converted value in the same attribute, an override whose
converted value is `None` is indistinguishable from no override. -/
inductive PyVal : Type where
  | none
  | int (n : Int)
  | str (s : String)
deriving DecidableEq

/-- The fields of `Setting` (heksher/setting.py) that the read path uses.
`configurable_features` is the OrderedSet of dimension names;
`last_ruleset` is the installed `RuleSet` root (`none` before any update; the
weakly-referenced supplying client is modelled as collected, so the caller's
namespace reaches resolution unchanged). -/
structure Setting : Type where
  name : String
  configurable_features : List String
  default_value : PyVal
  server_default_value : PyVal
  last_ruleset : Option (RuleBranch PyVal)

/-- Result of `Setting.get`: `valueError` for the redundant-keys ValueError,
`runtimeError` for a RuntimeError escaping resolution, `noMatchError` for the
`NoMatchError` the docstring documents (see exceptions.py), and `ok` for a
returned object (a `.leaf` embeds a plain value). -/
inductive GetResult : Type where
  | valueError
  | runtimeError
  | noMatchError
  | ok (v : RuleBranch PyVal)

/-- `Setting.get` (heksher/setting.py lines 107-135): reject context keys
outside the configurable features; otherwise resolve the installed ruleset
(catching only NoMatchError), and on a miss or a never-installed ruleset fall
back to the server default override when it is not `None`, else the declared
default. -/
def Setting.get (s : Setting) (contexts : List (String × String)) : GetResult :=
  if contexts.any (fun kv => !(s.configurable_features.contains kv.1)) then .valueError
  else
    let fallback : RuleBranch PyVal :=
      .leaf (if s.server_default_value = PyVal.none then s.default_value
             else s.server_default_value)
    match s.last_ruleset with
    | none => .ok fallback
    | some root =>
        match resolve root s.configurable_features contexts with
        | .error _ => .runtimeError
        | .ok none => .ok fallback
        | .ok (some v) => .ok v

/-- The rules of the spec's resolution-specificity example, §8. -/
def c1rules : List (List (String × String) × PyVal) :=
  [([("a", "x")], .int 1), ([("b", "y")], .int 2), ([("a", "x"), ("b", "y")], .int 3)]

/-- The collated tree of the resolution-specificity example. -/
def c1root : RuleBranch PyVal :=
  (collate_rules ["a", "b"] c1rules).getD (.node [])

/-- A setting holding the resolution-specificity example's tree, with declared
default 99 and no server override. -/
def c1setting : Setting :=
  { name := "c1", configurable_features := ["a", "b"], default_value := .int 99,
    server_default_value := .none, last_ruleset := some c1root }

/-- The rules of the spec's deepest-wins example, §8. -/
def c2rules : List (List (String × String) × PyVal) :=
  [([("c", "z")], .int 10), ([("a", "x")], .int 20)]

/-- The children of the collated deepest-wins tree's root. -/
def c2children : List (Option String × RuleBranch PyVal) :=
  [(none, .node [(none, .node [(some "z", .leaf (.int 10))])]),
   (some "x", .node [(none, .node [(none, .leaf (.int 20))])])]

/-- The collated tree of the deepest-wins example. -/
def c2root : RuleBranch PyVal :=
  (collate_rules ["a", "b", "c"] c2rules).getD (.node [])

/-- The context namespace of the deepest-wins example: a=x, b arbitrary, c=z. -/
def c2ns : List (String × String) := [("a", "x"), ("b", "q"), ("c", "z")]

/-- Setting with both defaults Python None and no ruleset ever installed:
in the claimed reading, neither a server override nor a declared default
exists. -/
def c5setting : Setting :=
  { name := "c5", configurable_features := ["a"], default_value := .none,
    server_default_value := .none, last_ruleset := none }

/-- Setting with no default (Python None), no server override, and an
installed rule set collated from zero rules. -/
def c6setting : Setting :=
  { name := "c6", configurable_features := ["a"], default_value := .none,
    server_default_value := .none, last_ruleset := some (.node []) }

/-- Zero-dimension setting with a declared default and the no-rules sentinel
`{}` installed as its collated tree. -/
def c7setting : Setting :=
  { name := "c7", configurable_features := [], default_value := .int 5,
    server_default_value := .none, last_ruleset := some (.node []) }

/-- First ordering of the collation-determinism witness rules. -/
def c3rulesA : List (List (String × String) × Int) := [([("a", "x")], 1), ([("b", "y")], 2)]

/-- Second ordering of the collation-determinism witness rules. -/
def c3rulesB : List (List (String × String) × Int) := [([("b", "y")], 2), ([("a", "x")], 1)]

/-- Tree collated from `c3rulesA`. -/
def c3treeA : RuleBranch Int :=
  .node [(some "x", .node [(none, .leaf 1)]), (none, .node [(some "y", .leaf 2)])]

/-- Tree collated from `c3rulesB`: same nested mapping, different dict
insertion order. -/
def c3treeB : RuleBranch Int :=
  .node [(none, .node [(some "y", .leaf 2)]), (some "x", .node [(none, .leaf 1)])]

/-- The V1APIClient state that the main-slot transfer reads: the ordered
(deduplicated) context-feature list, the contents of the undeclared-settings
queue, and the tracked-settings table (setting identities as opaque numbers;
the table is weak, which does not affect the handover logic). -/
structure V1Client : Type where
  context_features : List String
  undeclared : List Nat
  tracked_settings : List (String × Nat)

/-- The process-wide main-client slot: a `TemporaryClient` holding undeclared
settings, a real `V1APIClient`, or a client of any other type. -/
inductive MainSlot : Type where
  | temporary (undeclared : List Nat)
  | v1 (c : V1Client)
  | otherType

/-- The exceptions `_set_as_main` can raise: RuntimeError for an undrained
previous queue, RuntimeError for differing context features, TypeError for an
unknown previous client type. -/
inductive HandoverError : Type where
  | undrained
  | contextMismatch
  | typeMismatch

/-- Lookup in a string-keyed table. -/
def strLookup {α : Type} (m : List (String × α)) (k : String) : Option α :=
  match m with
  | [] => none
  | (k1, v) :: rest => if k1 = k then some v else strLookup rest k

/-- The tracked-settings merge of `_set_as_main`: entries of the previous
main are adopted unless the new client already tracks the name. -/
def mergeTracked (self prev : List (String × Nat)) : List (String × Nat) :=
  prev.foldl (fun acc kv => if (strLookup acc kv.1).isSome then acc else acc ++ [kv]) self

/-- `V1APIClient._set_as_main` (heksher/clients/subclasses.py lines 228-259)
as a transformer of the main-client slot.  The returned slot is the value of
the main slot after the call: the assignment of self to the slot is the last
statement, so on any raised error the slot is unchanged. -/
def set_as_main (self : V1Client) (main : MainSlot) : MainSlot × Option HandoverError :=
  match main with
  | .temporary und => (.v1 { self with undeclared := self.undeclared ++ und }, none)
  | .v1 prev =>
      if prev.undeclared ≠ [] then (main, some .undrained)
      else if self.context_features ≠ prev.context_features then (main, some .contextMismatch)
      else (.v1 { self with
                    tracked_settings := mergeTracked self.tracked_settings prev.tracked_settings },
            none)
  | .otherType => (main, some .typeMismatch)

/-- One rule as returned by the rule-query endpoint: rule id, exact-match
conditions, raw (unconverted) value. -/
structure RuleMapping (Raw : Type) : Type where
  rule_id : Int
  context_features : List (String × String)
  value : Raw

/-- The per-setting payload of a query response: rule list and raw default. -/
structure SettingResults (Raw : Type) : Type where
  rules : List (RuleMapping Raw)
  default_value : Raw

/-- The per-rule loop of `_update_settings_from_query`: accumulate rejected
rule ids (unrecognized context features, or a TypeError from value
conversion) and accepted (converted value, conditions) pairs, in input
order.  `conv` abstracts `Setting.convert_server_value` (the type engine and
validators): `none` models a raised TypeError, `some (v, cs)` a conversion
with coercion list `cs` (coercions are logged, never rejected). -/
def processRules {Raw : Type} (conv : Raw → Option (PyVal × List String))
    (features : List String) (rms : List (RuleMapping Raw)) :
    List Int × List (PyVal × List (String × String)) :=
  rms.foldl
    (fun acc rm =>
      if rm.context_features.any (fun cf => !(features.contains cf.1)) then
        (acc.1 ++ [rm.rule_id], acc.2)
      else
        match conv rm.value with
        | none => (acc.1 ++ [rm.rule_id], acc.2)
        | some vc => (acc.1, acc.2 ++ [(vc.1, rm.context_features)]))
    ([], [])

/-- The body of `_update_settings_from_query` for one returned setting:
process the rules, convert the returned default (a TypeError leaves the
stored override unchanged), then `Setting.update` collates the accepted
rules and installs the new tree.  `.error` models an exception escaping the
loop body (only possible in `collate_rules`, for rule conditions out of
order with the feature list).  Returns the updated setting and the rejected
rule ids. -/
def update_settings_one {Raw : Type} (conv : Raw → Option (PyVal × List String))
    (s : Setting) (res : SettingResults Raw) : Except Unit (Setting × List Int) :=
  let pr := processRules conv s.configurable_features res.rules
  let newDefault : PyVal :=
    match conv res.default_value with
    | none => s.server_default_value
    | some vc => vc.1
  match collate_rules s.configurable_features (pr.2.map fun vr => (vr.2, vr.1)) with
  | none => .error ()
  | some root =>
      .ok ({ s with server_default_value := newDefault, last_ruleset := some root }, pr.1)

/-- The whole `_update_settings_from_query` cycle over the returned settings
(each paired with its tracked `Setting`). -/
def update_settings_from_query {Raw : Type} (conv : Raw → Option (PyVal × List String))
    (pairs : List (Setting × SettingResults Raw)) : Except Unit (List (Setting × List Int)) :=
  pairs.mapM fun p => update_settings_one conv p.1 p.2

/-- Specification-level view of the accepted rules: those whose conditions
all name configured features and whose value converts, with converted
values, in input order. -/
def acceptedRules {Raw : Type} (conv : Raw → Option (PyVal × List String))
    (features : List String) : List (RuleMapping Raw) →
    List (List (String × String) × PyVal)
  | [] => []
  | rm :: rest =>
      if rm.context_features.any (fun cf => !(features.contains cf.1)) then
        acceptedRules conv features rest
      else
        match conv rm.value with
        | none => acceptedRules conv features rest
        | some vc => (rm.context_features, vc.1) :: acceptedRules conv features rest

/-- Specification-level view of the individually dropped rules. -/
def rejectedIds {Raw : Type} (conv : Raw → Option (PyVal × List String))
    (features : List String) : List (RuleMapping Raw) → List Int
  | [] => []
  | rm :: rest =>
      if rm.context_features.any (fun cf => !(features.contains cf.1)) then
        rm.rule_id :: rejectedIds conv features rest
      else
        match conv rm.value with
        | none => rm.rule_id :: rejectedIds conv features rest
        | some _ => rejectedIds conv features rest

/-- The accepted values in the accumulator's own order: (converted value,
conditions) pairs, as `processRules` collects them. -/
def acceptedVals {Raw : Type} (conv : Raw → Option (PyVal × List String))
    (features : List String) : List (RuleMapping Raw) →
    List (PyVal × List (String × String))
  | [] => []
  | rm :: rest =>
      if rm.context_features.any (fun cf => !(features.contains cf.1)) then
        acceptedVals conv features rest
      else
        match conv rm.value with
        | none => acceptedVals conv features rest
        | some vc => (vc.1, rm.context_features) :: acceptedVals conv features rest

/-- Predicate of the fault-isolation hypothesis: every accepted rule's
conditions form an ordered subsequence of the setting's feature list. -/
def acceptedWf {Raw : Type} (conv : Raw → Option (PyVal × List String))
    (features : List String) (rms : List (RuleMapping Raw)) : Prop :=
  ∀ r ∈ acceptedRules conv features rms, (rulePath features r.1).isSome = true

/-- Whether an exceptional computation finished without raising. -/
def exceptOk {E A : Type} : Except E A → Bool
  | .ok _ => true
  | .error _ => false

/-- A concrete conversion function for witnesses: the raw value "bad" fails
conversion, everything else converts to itself. -/
def c9conv : PyVal → Option (PyVal × List String) := fun r =>
  match r with
  | .str "bad" => none
  | x => some (x, [])

/-- Concrete setting for the per-rule fault isolation witness. -/
def c9setting : Setting :=
  { name := "c9", configurable_features := ["a"], default_value := .int 0,
    server_default_value := .none, last_ruleset := none }

/-- Concrete query results: one rule with an unrecognized feature, one with
an unconvertible value, one good rule. -/
def c9res : SettingResults PyVal :=
  { rules := [⟨1, [("zz", "v")], .int 7⟩, ⟨2, [("a", "u")], .str "bad"⟩, ⟨3, [("a", "w")], .int 9⟩],
    default_value := .int 4 }

theorem dictLookup_dictSet {α : Type} (m : List (Option String × α)) (k : Option String)
    (v : α) (k' : Option String) :
    dictLookup (dictSet m k v) k' = if k' = k then some v else dictLookup m k' := by
  induction m with
  | nil =>
    rcases eq_or_ne k' k with rfl | h
    · simp [dictSet, dictLookup]
    · simp [dictSet, dictLookup, h, Ne.symm h]
  | cons hd tl ih =>
    obtain ⟨k1, v1⟩ := hd
    rcases eq_or_ne k1 k with rfl | h1
    · rcases eq_or_ne k' k1 with rfl | h
      · simp [dictSet, dictLookup]
      · simp [dictSet, dictLookup, h, Ne.symm h]
    · rcases eq_or_ne k' k1 with rfl | h
      · simp [dictSet, dictLookup, h1, Ne.symm h1]
      · simp [dictSet, dictLookup, h1, h, Ne.symm h, ih]

theorem zipSuperseq_length (keys : List String) :
    ∀ (conds : List (String × String)) (p : List (Option String)),
      zipSuperseq keys conds = some p → p.length = keys.length := by
  induction keys with
  | nil =>
    intro conds p h
    cases conds with
    | nil => simp [zipSuperseq] at h; simp [← h]
    | cons c cs => simp [zipSuperseq] at h
  | cons k ks ih =>
    intro conds p h
    cases conds with
    | nil =>
      simp [zipSuperseq] at h
      simp [← h]
    | cons c cs =>
      simp only [zipSuperseq] at h
      by_cases hc : c.1 = k
      · rw [if_pos hc] at h
        cases hz : zipSuperseq ks cs with
        | none => rw [hz] at h; simp at h
        | some t =>
          rw [hz] at h
          simp only [Option.map_some', Option.some.injEq] at h
          subst h
          simp [ih cs t hz]
      · rw [if_neg hc] at h
        cases hz : zipSuperseq ks (c :: cs) with
        | none => rw [hz] at h; simp at h
        | some t =>
          rw [hz] at h
          simp only [Option.map_some', Option.some.injEq] at h
          subst h
          simp [ih (c :: cs) t hz]

theorem rulePath_length {keys : List String} {conds : List (String × String)}
    {p : List (Option String)} (h : rulePath keys conds = some p) :
    p.length = keys.length :=
  zipSuperseq_length keys conds p h

theorem pathRules_eq_map {T : Type} {keys : List String} :
    ∀ {rules : List (List (String × String) × T)} {prs},
      pathRules keys rules = some prs →
      prs = rules.map fun r => ((rulePath keys r.1).getD [], r.2) := by
  intro rules
  induction rules with
  | nil => intro prs h; simp [pathRules] at h; simp [← h]
  | cons r rest ih =>
    intro prs h
    simp only [pathRules] at h
    cases hp : rulePath keys r.1 with
    | none => simp [hp] at h
    | some p =>
      cases hr : pathRules keys rest with
      | none => simp [hp, hr] at h
      | some tl =>
        simp only [hp, hr, Option.some.injEq] at h
        subst h
        simp [hp, ih hr]

theorem pathRules_wf {T : Type} {keys : List String} :
    ∀ {rules : List (List (String × String) × T)} {prs},
      pathRules keys rules = some prs →
      ∀ r ∈ rules, (rulePath keys r.1).isSome := by
  intro rules
  induction rules with
  | nil => intro prs _ r hr; simp at hr
  | cons r0 rest ih =>
    intro prs h r hr
    simp only [pathRules] at h
    cases hp : rulePath keys r0.1 with
    | none => simp [hp] at h
    | some p =>
      cases hrest : pathRules keys rest with
      | none => simp [hp, hrest] at h
      | some tl =>
        rcases List.mem_cons.1 hr with rfl | hmem
        · simp [hp]
        · exact ih hrest r hmem

theorem pathRules_lengths {T : Type} {keys : List String}
    {rules : List (List (String × String) × T)} {prs}
    (h : pathRules keys rules = some prs) :
    ∀ pr ∈ prs, pr.1.length = keys.length := by
  intro pr hpr
  rw [pathRules_eq_map h] at hpr
  obtain ⟨r, hr, rfl⟩ := List.mem_map.1 hpr
  have hwf := pathRules_wf h r hr
  cases hp : rulePath keys r.1 with
  | none => rw [hp] at hwf; simp at hwf
  | some p => simp [hp, rulePath_length hp]

theorem uniformChildren_lookup {T : Type} {n : Nat}
    {m : List (Option String × RuleBranch T)} {k : Option String} {c : RuleBranch T}
    (hu : uniformChildren n m = true) (hl : dictLookup m k = some c) :
    uniform n c = true := by
  induction m with
  | nil => simp [dictLookup] at hl
  | cons hd tl ih =>
    simp only [uniformChildren, Bool.and_eq_true] at hu
    simp only [dictLookup] at hl
    by_cases hk : hd.1 = k
    · rw [if_pos hk] at hl
      cases hl
      exact hu.1
    · rw [if_neg hk] at hl
      exact ih hu.2 hl

theorem uniformChildren_dictSet {T : Type} {n : Nat}
    {m : List (Option String × RuleBranch T)} {k : Option String} {c : RuleBranch T}
    (hu : uniformChildren n m = true) (hc : uniform n c = true) :
    uniformChildren n (dictSet m k c) = true := by
  induction m with
  | nil => simp [dictSet, uniformChildren, hc]
  | cons hd tl ih =>
    simp only [uniformChildren, Bool.and_eq_true] at hu
    by_cases hk : hd.1 = k
    · simp [dictSet, hk, uniformChildren, hc, hu.2]
    · simp [dictSet, hk, uniformChildren, hu.1, ih hu.2]

theorem uniform_insertPath {T : Type} (v : T) :
    ∀ (q : List (Option String)) (m : List (Option String × RuleBranch T)),
      q ≠ [] → uniform q.length (.node m) = true →
      uniform q.length (.node (insertPath m q v)) = true := by
  intro q
  induction q with
  | nil => intro m h; exact absurd rfl h
  | cons k q' ih =>
    intro m _ hu
    cases q' with
    | nil =>
      simp only [insertPath, List.length_cons, List.length_nil, uniform] at hu ⊢
      exact uniformChildren_dictSet hu rfl
    | cons k2 rest =>
      simp only [insertPath, List.length_cons, uniform] at hu ⊢
      apply uniformChildren_dictSet hu
      have hcm : uniform (k2 :: rest).length
          (.node (match dictLookup m k with
                  | some (.node cm) => cm
                  | _ => ([] : List (Option String × RuleBranch T)))) = true := by
        cases hl : dictLookup m k with
        | none => simp [uniform, uniformChildren]
        | some c =>
          cases c with
          | leaf w =>
            have := uniformChildren_lookup hu hl
            simp [uniform] at this
          | node cm =>
            have := uniformChildren_lookup hu hl
            simpa [uniform] using this
      have := ih _ (by simp) hcm
      simpa [uniform] using this

theorem kindAt_node_cons {T : Type} (m : List (Option String × RuleBranch T))
    (k : Option String) (p : List (Option String)) :
    kindAt (.node m) (k :: p) =
      (match dictLookup m k with
       | none => none
       | some c => kindAt c p) := by
  cases h : dictLookup m k <;> simp [kindAt, descend, h]

theorem kindAt_deep {T : Type} :
    ∀ (p : List (Option String)) (t : RuleBranch T) (n : Nat),
      uniform n t = true → n < p.length → kindAt t p = none := by
  intro p
  induction p with
  | nil => intro t n _ h; simp at h
  | cons k p' ih =>
    intro t n hu hlt
    cases t with
    | leaf w =>
      cases n with
      | zero => simp [kindAt, descend]
      | succ n' => simp [uniform] at hu
    | node m =>
      cases n with
      | zero => simp [uniform] at hu
      | succ n' =>
        rw [kindAt_node_cons]
        cases hl : dictLookup m k with
        | none => rfl
        | some c =>
          have hc : uniform n' c = true := by
            simp only [uniform] at hu
            exact uniformChildren_lookup hu hl
          simpa using ih c n' hc (by simpa using Nat.lt_of_succ_lt_succ hlt)

theorem isPre_length_eq :
    ∀ (p q : List (Option String)), isPre p q = true → p.length = q.length → p = q := by
  intro p
  induction p with
  | nil => intro q _ hl; cases q with | nil => rfl | cons b bs => simp at hl
  | cons a as ih =>
    intro q hp hl
    cases q with
    | nil => simp [isPre] at hp
    | cons b bs =>
      simp only [isPre, Bool.and_eq_true, decide_eq_true_eq] at hp
      simp only [List.length_cons, Nat.add_right_cancel_iff] at hl
      rw [hp.1, ih bs hp.2 hl]

theorem kindAt_insertPath {T : Type} (v : T) :
    ∀ (q : List (Option String)) (m : List (Option String × RuleBranch T))
      (p : List (Option String)),
      q ≠ [] → uniform q.length (.node m) = true →
      kindAt (.node (insertPath m q v)) p =
        (if p = q then some (some v)
         else if p ≠ [] ∧ isPre p q = true then some none
         else kindAt (.node m) p) := by
  intro q
  induction q with
  | nil => intro m p h _; exact absurd rfl h
  | cons k q' ih =>
    intro m p _ hu
    cases q' with
    | nil =>
      cases p with
      | nil =>
        rw [if_neg (by simp), if_neg (by simp)]
        simp [insertPath, kindAt, descend]
      | cons k' p' =>
        rcases eq_or_ne k' k with rfl | hk
        · cases p' with
          | nil =>
            rw [if_pos rfl]
            simp [insertPath, kindAt_node_cons, dictLookup_dictSet, kindAt, descend]
          | cons a b =>
            rw [if_neg (by simp), if_neg (by simp [isPre])]
            have hr : kindAt (.node m) (k' :: a :: b) = none :=
              kindAt_deep _ _ 1 hu (by simp)
            rw [hr]
            simp [insertPath, kindAt_node_cons, dictLookup_dictSet, kindAt, descend]
        · rw [if_neg (by simp [hk]), if_neg (by simp [isPre, hk])]
          simp only [insertPath, kindAt_node_cons, dictLookup_dictSet, if_neg hk]
    | cons k2 rest =>
      have hcm : uniform (k2 :: rest).length
          (.node (match dictLookup m k with
                  | some (.node cm) => cm
                  | _ => ([] : List (Option String × RuleBranch T)))) = true := by
        simp only [List.length_cons, uniform] at hu
        cases hl : dictLookup m k with
        | none => simp [uniform, uniformChildren]
        | some c =>
          cases c with
          | leaf w =>
            have := uniformChildren_lookup hu hl
            simp [uniform] at this
          | node cm =>
            have := uniformChildren_lookup hu hl
            simpa [uniform] using this
      cases p with
      | nil =>
        rw [if_neg (by simp), if_neg (by simp)]
        simp [insertPath, kindAt, descend]
      | cons k' p' =>
        rcases eq_or_ne k' k with rfl | hk
        · have hlhs : kindAt (.node (insertPath m (k' :: k2 :: rest) v)) (k' :: p') =
              kindAt (.node (insertPath
                (match dictLookup m k' with
                 | some (.node cm) => cm
                 | _ => ([] : List (Option String × RuleBranch T))) (k2 :: rest) v)) p' := by
            simp only [insertPath, kindAt_node_cons, dictLookup_dictSet, eq_self_iff_true,
              if_true]
          rw [hlhs, ih _ p' (by simp) hcm]
          rcases eq_or_ne p' (k2 :: rest) with rfl | hpq
          · rw [if_pos rfl, if_pos rfl]
          · rw [if_neg hpq, if_neg (show ¬(k' :: p' = k' :: k2 :: rest) by simp [hpq])]
            cases p' with
            | nil =>
              rw [if_neg (by simp), if_pos (by simp [isPre])]
              simp [kindAt, descend]
            | cons a b =>
              by_cases hpre : isPre (a :: b) (k2 :: rest) = true
              · rw [if_pos ⟨by simp, hpre⟩,
                  if_pos ⟨by simp,
                    show (decide (k' = k') && isPre (a :: b) (k2 :: rest)) = true by
                      rw [hpre]; simp⟩]
              · have hpre2 : isPre (k' :: a :: b) (k' :: k2 :: rest) = false := by
                  show (decide (k' = k') && isPre (a :: b) (k2 :: rest)) = false
                  rw [Bool.eq_false_iff.2 hpre]
                  simp
                rw [if_neg (by simp [hpre]), if_neg (by simp [hpre2]),
                  kindAt_node_cons m k' (a :: b)]
                cases hl : dictLookup m k' with
                | none => simp [kindAt_node_cons, dictLookup]
                | some c =>
                  cases c with
                  | leaf w =>
                    simp only [List.length_cons, uniform] at hu
                    have := uniformChildren_lookup hu hl
                    simp [uniform] at this
                  | node cm => rfl
        · rw [if_neg (by simp [hk]), if_neg (by simp [isPre, hk])]
          simp only [insertPath, kindAt_node_cons, dictLookup_dictSet, if_neg hk]

theorem uniform_foldl {T : Type} (n : Nat) (hn : 0 < n) :
    ∀ (prs : List (List (Option String) × T)) (m : List (Option String × RuleBranch T)),
      (∀ pr ∈ prs, pr.1.length = n) → uniform n (.node m) = true →
      uniform n (.node (prs.foldl (fun acc pr => insertPath acc pr.1 pr.2) m)) = true := by
  intro prs
  induction prs with
  | nil => intro m _ hu; simpa using hu
  | cons pr rest ih =>
    intro m hlen hu
    simp only [List.foldl_cons]
    apply ih
    · intro x hx; exact hlen x (List.mem_cons_of_mem _ hx)
    · have hlenpr := hlen pr (List.mem_cons_self _ _)
      have hq : pr.1 ≠ [] := by
        intro h; rw [h] at hlenpr; simp at hlenpr; omega
      have h2 := uniform_insertPath pr.2 pr.1 m hq (by rw [hlenpr]; exact hu)
      rw [hlenpr] at h2
      exact h2

theorem lastPathVal_mem {T : Type} :
    ∀ (prs : List (List (Option String) × T)) (p : List (Option String)) (v : T),
      lastPathVal prs p = some v → (p, v) ∈ prs := by
  intro prs
  induction prs with
  | nil => intro p v h; simp [lastPathVal] at h
  | cons pr rest ih =>
    obtain ⟨pr1, pr2⟩ := pr
    intro p v h
    simp only [lastPathVal] at h
    cases hr : lastPathVal rest p with
    | some w =>
      rw [hr] at h
      injection h with h
      exact List.mem_cons_of_mem _ (h ▸ ih p w hr)
    | none =>
      rw [hr] at h
      by_cases hp : pr1 = p
      · rw [if_pos hp] at h
        injection h with h
        subst hp
        subst h
        exact List.mem_cons_self _ _
      · rw [if_neg hp] at h
        simp at h

theorem mem_lastPathVal {T : Type} :
    ∀ (prs : List (List (Option String) × T)) (p : List (Option String)) (v : T),
      (prs.map Prod.fst).Nodup → (p, v) ∈ prs → lastPathVal prs p = some v := by
  intro prs
  induction prs with
  | nil => intro p v _ h; simp at h
  | cons pr rest ih =>
    obtain ⟨pr1, pr2⟩ := pr
    intro p v hnd hmem
    simp only [List.map_cons, List.nodup_cons] at hnd
    obtain ⟨hnotin, hnd2⟩ := hnd
    simp only [lastPathVal]
    rcases List.mem_cons.1 hmem with heq | hmem2
    · injection heq with h1 h2
      subst h1
      subst h2
      have hrest : lastPathVal rest p = none := by
        cases hr : lastPathVal rest p with
        | none => rfl
        | some w =>
          have hmw := lastPathVal_mem rest p w hr
          have hin : p ∈ rest.map Prod.fst := List.mem_map_of_mem Prod.fst hmw
          exact absurd hin hnotin
      rw [hrest, if_pos rfl]
    · rw [ih p v hnd2 hmem2]

theorem lastPathVal_perm {T : Type} (prs1 prs2 : List (List (Option String) × T))
    (hperm : prs1.Perm prs2) (hnd : (prs1.map Prod.fst).Nodup) (p : List (Option String)) :
    lastPathVal prs1 p = lastPathVal prs2 p := by
  have hnd2 : (prs2.map Prod.fst).Nodup := ((hperm.map Prod.fst).nodup_iff).1 hnd
  cases h1 : lastPathVal prs1 p with
  | some v =>
    exact (mem_lastPathVal prs2 p v hnd2 (hperm.mem_iff.1 (lastPathVal_mem _ _ _ h1))).symm
  | none =>
    cases h2 : lastPathVal prs2 p with
    | none => rfl
    | some v =>
      have hm1 : (p, v) ∈ prs1 := hperm.mem_iff.2 (lastPathVal_mem _ _ _ h2)
      rw [mem_lastPathVal prs1 p v hnd hm1] at h1
      simp at h1

theorem kindAt_foldl {T : Type} (n : Nat) (hn : 0 < n) :
    ∀ (prs : List (List (Option String) × T)) (m : List (Option String × RuleBranch T))
      (p : List (Option String)),
      (∀ pr ∈ prs, pr.1.length = n) → uniform n (.node m) = true →
      kindAt (.node (prs.foldl (fun acc pr => insertPath acc pr.1 pr.2) m)) p =
        (match lastPathVal prs p with
         | some w => some (some w)
         | none =>
             if p ≠ [] ∧ prs.any (fun pr => isPre p pr.1 && decide (p ≠ pr.1)) = true then
               some none
             else kindAt (.node m) p) := by
  intro prs
  induction prs with
  | nil =>
    intro m p _ _
    simp [lastPathVal]
  | cons pr rest ih =>
    intro m p hlen hu
    have hlenpr := hlen pr (List.mem_cons_self _ _)
    have hq : pr.1 ≠ [] := by
      intro h; rw [h] at hlenpr; simp at hlenpr; omega
    have hu2 : uniform n (.node (insertPath m pr.1 pr.2)) = true := by
      have h2 := uniform_insertPath pr.2 pr.1 m hq (by rw [hlenpr]; exact hu)
      rw [hlenpr] at h2
      exact h2
    have hL4 := kindAt_insertPath pr.2 pr.1 m p hq (by rw [hlenpr]; exact hu)
    simp only [List.foldl_cons]
    rw [ih (insertPath m pr.1 pr.2) p (fun x hx => hlen x (List.mem_cons_of_mem _ hx)) hu2]
    cases hrest : lastPathVal rest p with
    | some w => simp [lastPathVal, hrest]
    | none =>
      simp only [lastPathVal, hrest]
      by_cases hp : pr.1 = p
      · rw [if_pos hp]
        have hanyf : ¬(rest.any (fun q => isPre p q.1 && decide (p ≠ q.1)) = true) := by
          intro hc
          rw [List.any_eq_true] at hc
          obtain ⟨q, hq2, hfq⟩ := hc
          simp only [Bool.and_eq_true, decide_eq_true_eq] at hfq
          exact hfq.2 (isPre_length_eq p q.1 hfq.1
            (by rw [show p.length = n from hp ▸ hlenpr, hlen q (List.mem_cons_of_mem _ hq2)]))
        rw [if_neg (fun hc => hanyf hc.2), hL4, if_pos hp.symm]
      · rw [if_neg hp]
        by_cases hne : p = []
        · subst hne
          rw [if_neg (by simp), if_neg (by simp), hL4,
            if_neg (fun h => hq h.symm), if_neg (by simp)]
        · by_cases hrany : rest.any (fun q => isPre p q.1 && decide (p ≠ q.1)) = true
          · rw [if_pos ⟨hne, hrany⟩, if_pos ⟨hne, by rw [List.any_cons, hrany]; simp⟩]
          · rw [if_neg (fun hc => hrany hc.2), hL4]
            by_cases hppr : p = pr.1
            · exact absurd hppr.symm hp
            · rw [if_neg hppr]
              by_cases hpre : isPre p pr.1 = true
              · rw [if_pos ⟨hne, hpre⟩,
                  if_pos ⟨hne, by
                    simp only [List.any_cons, Bool.or_eq_true]
                    left
                    simp [hpre, hppr]⟩]
              · rw [if_neg (fun hh => hpre hh.2),
                  if_neg (fun hh => by
                    rcases hh with ⟨_, hany⟩
                    simp only [List.any_cons, Bool.or_eq_true] at hany
                    rcases hany with h1 | h2
                    · simp only [Bool.and_eq_true, decide_eq_true_eq] at h1
                      exact hpre h1.1
                    · exact hrany h2)]

theorem keysUnique_dictSet {T : Type} :
    ∀ (m : List (Option String × RuleBranch T)) (k : Option String) (c : RuleBranch T),
      keysUnique m = true → keysUnique (dictSet m k c) = true := by
  intro m
  induction m with
  | nil => intro k c _; simp [dictSet, keysUnique, dictLookup]
  | cons hd tl ih =>
    obtain ⟨k1, v1⟩ := hd
    intro k c hu
    simp only [keysUnique, Bool.and_eq_true] at hu
    rcases eq_or_ne k1 k with rfl | h1
    · simpa [dictSet, keysUnique] using hu
    · simp only [dictSet, if_neg h1, keysUnique, Bool.and_eq_true]
      refine ⟨?_, ih k c hu.2⟩
      rw [dictLookup_dictSet]
      rw [if_neg h1]
      exact hu.1

theorem childrenKeysOk_lookup {T : Type} :
    ∀ (m : List (Option String × RuleBranch T)) (k : Option String) (c : RuleBranch T),
      childrenKeysOk m = true → dictLookup m k = some c → treeKeysOk c = true := by
  intro m
  induction m with
  | nil => intro k c _ hl; simp [dictLookup] at hl
  | cons hd tl ih =>
    intro k c hok hl
    simp only [childrenKeysOk, Bool.and_eq_true] at hok
    simp only [dictLookup] at hl
    by_cases hk : hd.1 = k
    · rw [if_pos hk] at hl
      cases hl
      exact hok.1
    · rw [if_neg hk] at hl
      exact ih k c hok.2 hl

theorem childrenKeysOk_dictSet {T : Type} :
    ∀ (m : List (Option String × RuleBranch T)) (k : Option String) (c : RuleBranch T),
      childrenKeysOk m = true → treeKeysOk c = true →
      childrenKeysOk (dictSet m k c) = true := by
  intro m
  induction m with
  | nil => intro k c _ hc; simp [dictSet, childrenKeysOk, hc]
  | cons hd tl ih =>
    intro k c hok hc
    simp only [childrenKeysOk, Bool.and_eq_true] at hok
    by_cases hk : hd.1 = k
    · simp [dictSet, hk, childrenKeysOk, hc, hok.2]
    · simp [dictSet, hk, childrenKeysOk, hok.1, ih k c hok.2 hc]

theorem treeKeysOk_insertPath {T : Type} (v : T) :
    ∀ (q : List (Option String)) (m : List (Option String × RuleBranch T)),
      treeKeysOk (.node m) = true → treeKeysOk (.node (insertPath m q v)) = true := by
  intro q
  induction q with
  | nil => intro m h; simpa [insertPath] using h
  | cons k q' ih =>
    intro m h
    simp only [treeKeysOk, Bool.and_eq_true] at h
    cases q' with
    | nil =>
      simp only [insertPath, treeKeysOk, Bool.and_eq_true]
      exact ⟨keysUnique_dictSet m k _ h.1, childrenKeysOk_dictSet m k _ h.2 rfl⟩
    | cons k2 rest =>
      simp only [insertPath, treeKeysOk, Bool.and_eq_true]
      have hchild : treeKeysOk (.node
          (match dictLookup m k with
           | some (.node cm) => cm
           | _ => ([] : List (Option String × RuleBranch T)))) = true := by
        cases hl : dictLookup m k with
        | none => simp [treeKeysOk, keysUnique, childrenKeysOk]
        | some c =>
          cases c with
          | leaf w => simp [treeKeysOk, keysUnique, childrenKeysOk]
          | node cm => exact childrenKeysOk_lookup m k _ h.2 hl
      have hins := ih _ hchild
      exact ⟨keysUnique_dictSet m k _ h.1, childrenKeysOk_dictSet m k _ h.2 hins⟩

theorem treeKeysOk_foldl {T : Type} :
    ∀ (prs : List (List (Option String) × T)) (m : List (Option String × RuleBranch T)),
      treeKeysOk (.node m) = true →
      treeKeysOk (.node (prs.foldl (fun acc pr => insertPath acc pr.1 pr.2) m)) = true := by
  intro prs
  induction prs with
  | nil => intro m h; simpa using h
  | cons pr rest ih =>
    intro m h
    simp only [List.foldl_cons]
    exact ih _ (treeKeysOk_insertPath pr.2 pr.1 m h)

theorem uniform_node_nil {T : Type} (keys : List String) (hk : keys ≠ []) :
    uniform keys.length (.node ([] : List (Option String × RuleBranch T))) = true := by
  cases keys with
  | nil => exact absurd rfl hk
  | cons k ks => simp [uniform, uniformChildren]

/-- C1.  Resolution specificity: for dimensions [a,b] and collated rules
{a=x}->1, {b=y}->2, {a=x,b=y}->3, resolving (a=x,b=y) yields 3, (a=x,b=z)
yields 1, (a=w,b=y) yields 2, and (a=w,b=z) yields no match, so `get`
returns the default value. -/
theorem resolution_specificity :
    collate_rules ["a", "b"] c1rules = some c1root
    ∧ resolve c1root ["a", "b"] [("a", "x"), ("b", "y")] = .ok (some (.leaf (.int 3)))
    ∧ resolve c1root ["a", "b"] [("a", "x"), ("b", "z")] = .ok (some (.leaf (.int 1)))
    ∧ resolve c1root ["a", "b"] [("a", "w"), ("b", "y")] = .ok (some (.leaf (.int 2)))
    ∧ resolve c1root ["a", "b"] [("a", "w"), ("b", "z")] = .ok none
    ∧ c1setting.get [("a", "w"), ("b", "z")] = .ok (.leaf (.int 99)) :=
  ⟨rfl, rfl, rfl, rfl, rfl, rfl⟩

/-- C2.  Deepest-wins tie-break: at any node where both the exact child and
the wildcard child yield a match, `_resolve` keeps the match whose last
exact-match depth is greater, and on equal depths it keeps the exact branch's
match; in particular, the collated tree of {c=z}->10, {a=x}->20 over
[a,b,c] resolves (a=x,b=q,c=z) to 10. -/
theorem deepest_wins_tie_break {T : Type} (ns : List (String × String))
    (m : List (Option String × RuleBranch T)) (f : String) (rest : List String)
    (depth : Nat) (emd : Int) (fv : String) (cex cwc : RuleBranch T) (e w : RuleMatch T)
    (hf : nsGet ns f = some fv)
    (hex : dictLookup m (some fv) = some cex)
    (hexr : resolveAux ns cex rest (depth + 1) (Int.ofNat depth) = .ok (some e))
    (hwc : dictLookup m none = some cwc)
    (hwcr : resolveAux ns cwc rest (depth + 1) emd = .ok (some w)) :
    (resolveAux ns (.node m) (f :: rest) depth emd =
        .ok (some (if e.exact_match_depth < w.exact_match_depth then w else e))
      ∧ (if e.exact_match_depth < w.exact_match_depth then w else e).exact_match_depth
          = max e.exact_match_depth w.exact_match_depth
      ∧ (e.exact_match_depth = w.exact_match_depth →
          (if e.exact_match_depth < w.exact_match_depth then w else e) = e))
    ∧ resolve c2root ["a", "b", "c"] c2ns = .ok (some (.leaf (.int 10))) := by
  refine ⟨⟨?_, ?_, ?_⟩, rfl⟩
  · simp only [resolveAux, hf, hex, hexr, hwc, hwcr]
  · split <;> omega
  · intro h
    simp [h]

/-- Witness for C2, instantiating the node step at the root of the collated
deepest-wins tree, where the exact branch matches at depth 0 and the wildcard
branch at depth 2. -/
theorem deepest_wins_tie_break_witness :
    nsGet c2ns "a" = some "x"
    ∧ resolveAux c2ns (.node c2children) ["a", "b", "c"] 0 (-1) =
        .ok (some ⟨.leaf (.int 10), 2⟩) := by
  have h := deepest_wins_tie_break c2ns c2children "a" ["b", "c"] 0 (-1) "x"
    (.node [(none, .node [(none, .leaf (.int 20))])])
    (.node [(none, .node [(some "z", .leaf (.int 10))])])
    ⟨.leaf (.int 20), 0⟩ ⟨.leaf (.int 10), 2⟩ rfl rfl rfl rfl rfl
  exact ⟨rfl, by simpa using h.1.1⟩

/-- C3.  Collation determinism: for a fixed non-empty dimension list and a
rule list in which no two rules collate to the same root-to-leaf path,
collate is order-independent — collating any permutation of the rules gives
an identical tree, equal as nested mappings. -/
theorem collation_determinism {T : Type} (keys : List String)
    (rules1 rules2 : List (List (String × String) × T)) (t1 t2 : RuleBranch T)
    (hk : keys ≠ [])
    (hperm : rules1.Perm rules2)
    (hnd : (rules1.map fun r => rulePath keys r.1).Nodup)
    (h1 : collate_rules keys rules1 = some t1)
    (h2 : collate_rules keys rules2 = some t2) :
    EqNested t1 t2 := by
  cases keys with
  | nil => exact absurd rfl hk
  | cons k ks =>
    simp only [collate_rules] at h1 h2
    cases hp1 : pathRules (k :: ks) rules1 with
    | none => rw [hp1] at h1; simp at h1
    | some prs1 =>
      cases hp2 : pathRules (k :: ks) rules2 with
      | none => rw [hp2] at h2; simp at h2
      | some prs2 =>
        rw [hp1] at h1
        rw [hp2] at h2
        injection h1 with h1
        injection h2 with h2
        subst h1
        subst h2
        have hwf1 := pathRules_wf hp1
        have hlen1 := pathRules_lengths hp1
        have hlen2 := pathRules_lengths hp2
        have hmap1 := pathRules_eq_map hp1
        have hmap2 := pathRules_eq_map hp2
        have hpermprs : prs1.Perm prs2 := by
          rw [hmap1, hmap2]
          exact hperm.map _
        have hndp : (prs1.map Prod.fst).Nodup := by
          rw [hmap1, List.map_map]
          have hco : (rules1.map fun r => rulePath (k :: ks) r.1) =
              rules1.map (fun r => some ((rulePath (k :: ks) r.1).getD [])) := by
            apply List.map_congr_left
            intro r hr
            have := hwf1 r hr
            cases hx : rulePath (k :: ks) r.1 with
            | none => rw [hx] at this; simp at this
            | some px => simp
          rw [hco] at hnd
          have : (rules1.map fun r => some ((rulePath (k :: ks) r.1).getD [])) =
              (rules1.map fun r => ((rulePath (k :: ks) r.1).getD [])).map some := by
            rw [List.map_map]
            rfl
          rw [this] at hnd
          exact hnd.of_map
        intro p
        have e1 := kindAt_foldl (k :: ks).length (by simp) prs1 [] p hlen1
          (uniform_node_nil (k :: ks) (by simp))
        have e2 := kindAt_foldl (k :: ks).length (by simp) prs2 [] p hlen2
          (uniform_node_nil (k :: ks) (by simp))
        rw [e1, e2, lastPathVal_perm prs1 prs2 hpermprs hndp p]
        have hany : ((prs1.any fun pr => isPre p pr.1 && decide (p ≠ pr.1)) = true) ↔
            ((prs2.any fun pr => isPre p pr.1 && decide (p ≠ pr.1)) = true) := by
          simp only [List.any_eq_true]
          constructor
          · rintro ⟨x, hx, hfx⟩; exact ⟨x, hpermprs.mem_iff.1 hx, hfx⟩
          · rintro ⟨x, hx, hfx⟩; exact ⟨x, hpermprs.mem_iff.2 hx, hfx⟩
        cases lastPathVal prs2 p with
        | some w => rfl
        | none => exact if_congr (and_congr_right fun _ => hany) rfl rfl

/-- Witness for C3: the same two rules in both orders collate to dicts with
different insertion order but identical nested mappings. -/
theorem collation_determinism_witness :
    collate_rules ["a", "b"] c3rulesA = some c3treeA
    ∧ collate_rules ["a", "b"] c3rulesB = some c3treeB
    ∧ EqNested c3treeA c3treeB := by
  refine ⟨rfl, rfl, ?_⟩
  exact collation_determinism ["a", "b"] c3rulesA c3rulesB c3treeA c3treeB
    (by simp) (List.Perm.swap _ _ _) (by decide) rfl rfl

/-- C4.  RuleTree shape invariant: every tree collated over a non-empty
dimension list has every root-to-leaf path of depth exactly the dimension
count (so no rule's path terminates at an internal node of another rule's
path), and every node has at most one child per key (concrete value or
wildcard). -/
theorem ruletree_shape_invariant {T : Type} (keys : List String)
    (rules : List (List (String × String) × T)) (t : RuleBranch T)
    (hk : keys ≠ []) (h : collate_rules keys rules = some t) :
    uniform keys.length t = true ∧ treeKeysOk t = true := by
  cases keys with
  | nil => exact absurd rfl hk
  | cons k ks =>
    simp only [collate_rules] at h
    cases hp : pathRules (k :: ks) rules with
    | none => rw [hp] at h; simp at h
    | some prs =>
      rw [hp] at h
      injection h with h
      subst h
      constructor
      · exact uniform_foldl (k :: ks).length (by simp) prs []
          (pathRules_lengths hp) (uniform_node_nil (k :: ks) (by simp))
      · exact treeKeysOk_foldl prs [] rfl

/-- Witness for C4 at the resolution-specificity example tree. -/
theorem ruletree_shape_invariant_witness :
    collate_rules ["a", "b"] c1rules = some c1root
    ∧ uniform 2 c1root = true ∧ treeKeysOk c1root = true := by
  have h := ruletree_shape_invariant ["a", "b"] c1rules c1root (by simp) rfl
  exact ⟨rfl, h.1, h.2⟩

/-- C5 (amended).  Setting.get behaviour: a context key outside the
configurable features raises a usage error; otherwise, when no RuleTree was
ever installed or resolution misses, get returns the server default override
when it is not None, else the statically declared default (which always
exists — the default parameter is mandatory in this revision); get never
signals a no-match error. -/
theorem setting_get_behaviour (s : Setting) (ctx : List (String × String)) :
    ((∃ kv ∈ ctx, kv.1 ∉ s.configurable_features) → s.get ctx = .valueError)
    ∧ ((∀ kv ∈ ctx, kv.1 ∈ s.configurable_features) →
        (s.last_ruleset = none ∨
          (∃ root, s.last_ruleset = some root ∧
            resolve root s.configurable_features ctx = .ok none)) →
        s.get ctx = .ok (.leaf (if s.server_default_value = PyVal.none
            then s.default_value else s.server_default_value)))
    ∧ s.get ctx ≠ .noMatchError := by
  refine ⟨?_, ?_, ?_⟩
  · intro h
    obtain ⟨kv, hkv, hmem⟩ := h
    have hany : ctx.any (fun kv => !(s.configurable_features.contains kv.1)) = true := by
      rw [List.any_eq_true]
      exact ⟨kv, hkv, by simpa using hmem⟩
    simp only [Setting.get, hany]
    simp
  · intro hall hmiss
    have hany : ctx.any (fun kv => !(s.configurable_features.contains kv.1)) = false := by
      rw [List.any_eq_false]
      intro kv hkv
      simpa using hall kv hkv
    rcases hmiss with hnone | ⟨root, hroot, hres⟩
    · simp only [Setting.get, hany, hnone]
      simp
    · simp only [Setting.get, hany, hroot, hres]
      simp
  · simp only [Setting.get]
    split
    · simp
    · split
      · simp
      · split <;> simp

/-- Witness for C5 (amended), at the resolution-specificity setting: an
unconfigured key raises the usage error, and a no-match context returns the
declared default. -/
theorem setting_get_behaviour_witness :
    c1setting.get [("q", "1")] = .valueError
    ∧ c1setting.get [("a", "w"), ("b", "z")] = .ok (.leaf (.int 99)) := by
  constructor
  · exact (setting_get_behaviour c1setting [("q", "1")]).1
      ⟨("q", "1"), by simp, by simp [c1setting]⟩
  · have h := (setting_get_behaviour c1setting [("a", "w"), ("b", "z")]).2.1
      (by simp [c1setting]) (Or.inr ⟨c1root, rfl, rfl⟩)
    simpa [c1setting] using h

/-- C5 counterexample: a setting whose declared default and server override
are both Python None — i.e. neither default exists, on the reading that a
stored None marks absence, as the override branch itself does — and with no
ruleset ever installed: get returns None instead of signalling the no-match
error the claim requires. -/
theorem setting_get_no_match_counterexample :
    c5setting.get [] = .ok (.leaf PyVal.none)
    ∧ GetResult.ok (.leaf PyVal.none) ≠ .noMatchError :=
  ⟨rfl, by simp⟩

/-- C6 (code-bug evaluation).  A setting with no default value (Python None)
and the empty installed rule set: for every context value, get returns None
instead of raising the NoMatchError promised by its docstring and by
exceptions.py. -/
theorem no_match_propagation_failing (v : String) :
    c6setting.get [("a", v)] = .ok (.leaf PyVal.none) := by
  simp [c6setting, Setting.get, resolve, resolveAux, nsGet, dictLookup]

/-- C10.  The server default override is used only when it is not None:
whenever the stored override is None — including when a sync legitimately
converted the server default to None — get falls back to the declared
default, so an override whose value is None can never be observed. -/
theorem server_default_none_invisible (s : Setting) (ctx : List (String × String))
    (hkeys : ∀ kv ∈ ctx, kv.1 ∈ s.configurable_features)
    (hmiss : s.last_ruleset = none ∨
      ∃ root, s.last_ruleset = some root ∧
        resolve root s.configurable_features ctx = .ok none) :
    (s.server_default_value = PyVal.none → s.get ctx = .ok (.leaf s.default_value))
    ∧ (s.server_default_value ≠ PyVal.none → s.get ctx = .ok (.leaf s.server_default_value)) := by
  have hany : ctx.any (fun kv => !(s.configurable_features.contains kv.1)) = false := by
    rw [List.any_eq_false]
    intro kv hkv
    simpa using hkeys kv hkv
  constructor
  · intro hsd
    rcases hmiss with hnone | ⟨root, hroot, hres⟩
    · simp only [Setting.get, hany, hnone, hsd]
      simp
    · simp only [Setting.get, hany, hroot, hres, hsd]
      simp
  · intro hsd
    rcases hmiss with hnone | ⟨root, hroot, hres⟩
    · simp only [Setting.get, hany, hnone]
      simp [hsd]
    · simp only [Setting.get, hany, hroot, hres]
      simp [hsd]

/-- Witness for C10: a stored None override is invisible — the declared
default (itself None here) is returned. -/
theorem server_default_none_invisible_witness :
    c6setting.server_default_value = PyVal.none
    ∧ c6setting.get [("a", "x")] = .ok (.leaf c6setting.default_value) := by
  refine ⟨rfl, ?_⟩
  exact (server_default_none_invisible c6setting [("a", "x")] (by simp [c6setting])
    (Or.inr ⟨.node [], rfl, rfl⟩)).1 rfl

/-- C7 counterexample: with no dimensions, three conflicting rules collate to
the second rule's value (2), not the last one's (3); and the zero-dimension
no-rules sentinel (the empty mapping) is returned by resolution as a value —
and surfaced by get, bypassing the declared default 5 — rather than treated
as a miss. -/
theorem collation_conflict_policy_counterexample :
    collate_rules ([] : List String) [([], (1 : Int)), ([], 2), ([], 3)] = some (.leaf 2)
    ∧ resolve (.node [] : RuleBranch PyVal) [] [] = .ok (some (.node []))
    ∧ c7setting.get [] = .ok (.node []) :=
  ⟨rfl, rfl, rfl⟩

/-- C8.  Handover failure atomicity: installing a real client as main over a
real previous main raises synchronously when the previous declaration queue
is undrained or the context-feature lists differ, and in every such failure
the main slot is unchanged; only when neither condition holds is the new
client installed (inheriting the tracked settings it did not already
track). -/
theorem handover_failure_atomicity (self prev : V1Client) :
    ((prev.undeclared ≠ [] ∨ self.context_features ≠ prev.context_features) →
      (set_as_main self (.v1 prev)).2.isSome = true
      ∧ (set_as_main self (.v1 prev)).1 = .v1 prev)
    ∧ (prev.undeclared = [] → self.context_features = prev.context_features →
      set_as_main self (.v1 prev) =
        (.v1 { self with tracked_settings :=
                 mergeTracked self.tracked_settings prev.tracked_settings }, none)) := by
  constructor
  · intro h
    rcases h with h | h
    · simp [set_as_main, h]
    · by_cases hq : prev.undeclared = []
      · simp [set_as_main, hq, h]
      · simp [set_as_main, hq]
  · intro h1 h2
    simp [set_as_main, h1, h2]

/-- Client states for the handover witness. -/
def c8prevBusy : V1Client := ⟨["a"], [7], []⟩

/-- Drained previous main tracking one setting. -/
def c8prevIdle : V1Client := ⟨["a"], [], [("s", 1)]⟩

/-- New client agreeing on features with the idle previous main. -/
def c8new : V1Client := ⟨["a"], [], [("t", 2)]⟩

/-- New client with a different feature list. -/
def c8newDiff : V1Client := ⟨["b"], [], []⟩

/-- Witness for C8: both failure modes leave the previous main in place, and
the clean handover installs the new client with the merged tracked table. -/
theorem handover_failure_atomicity_witness :
    (set_as_main c8new (.v1 c8prevBusy)).1 = .v1 c8prevBusy
    ∧ (set_as_main c8newDiff (.v1 c8prevIdle)).1 = .v1 c8prevIdle
    ∧ set_as_main c8new (.v1 c8prevIdle) = (.v1 ⟨["a"], [], [("t", 2), ("s", 1)]⟩, none) := by
  refine ⟨?_, ?_, ?_⟩
  · exact ((handover_failure_atomicity c8new c8prevBusy).1 (Or.inl (by simp [c8prevBusy]))).2
  · exact ((handover_failure_atomicity c8newDiff c8prevIdle).1
      (Or.inr (by simp [c8newDiff, c8prevIdle]))).2
  · have h := (handover_failure_atomicity c8new c8prevIdle).2 rfl rfl
    simpa [c8new, c8prevIdle, mergeTracked, strLookup] using h

/-- C7 (amended).  Collation conflict policy: with dimensions, when several
rules collate to the same root-to-leaf path, the collated tree holds the
value of the last such rule in input order; with no dimensions, collating no
rules yields the empty-mapping sentinel, one rule yields its value, and two
or more conflicting rules yield the second rule's value; resolution treats
an empty tree as a miss for settings with at least one dimension, but
returns the zero-dimension sentinel itself as a value rather than a miss. -/
theorem collation_conflict_policy {T : Type} :
    (∀ (keys : List String) (rules : List (List (String × String) × T)) prs p v t,
        keys ≠ [] → pathRules keys rules = some prs → lastPathVal prs p = some v →
        collate_rules keys rules = some t → kindAt t p = some (some v))
    ∧ collate_rules ([] : List String) ([] : List (List (String × String) × T)) =
        some (.node [])
    ∧ (∀ v : T, collate_rules [] [([], v)] = some (.leaf v))
    ∧ (∀ (v1 v2 : T) (rest : List (List (String × String) × T)),
        collate_rules [] (([], v1) :: ([], v2) :: rest) = some (.leaf v2))
    ∧ (∀ (f : String) (fs : List String) (ns : List (String × String)) (x : String),
        nsGet ns f = some x → resolve (.node [] : RuleBranch T) (f :: fs) ns = .ok none)
    ∧ (∀ ns : List (String × String),
        resolve (.node [] : RuleBranch T) [] ns = .ok (some (.node []))) := by
  refine ⟨?_, rfl, fun v => rfl, fun v1 v2 rest => rfl, ?_, fun ns => rfl⟩
  · intro keys rules prs p v t hk hpr hlast hc
    cases keys with
    | nil => exact absurd rfl hk
    | cons k ks =>
      simp only [collate_rules] at hc
      rw [hpr] at hc
      injection hc with hc
      subst hc
      rw [kindAt_foldl (k :: ks).length (by simp) prs [] p (pathRules_lengths hpr)
        (uniform_node_nil (k :: ks) (by simp)), hlast]
  · intro f fs ns x h
    simp [resolve, resolveAux, h, dictLookup]

/-- Witness for C7 (amended): two rules with the identical path leave the
later rule's value at that path, and an empty one-dimension tree misses. -/
theorem collation_conflict_policy_witness :
    pathRules ["a"] [([("a", "x")], (1 : Int)), ([("a", "x")], 2)] =
      some [([some "x"], 1), ([some "x"], 2)]
    ∧ lastPathVal [([some "x"], (1 : Int)), ([some "x"], 2)] [some "x"] = some 2
    ∧ collate_rules ["a"] [([("a", "x")], (1 : Int)), ([("a", "x")], 2)] =
        some (.node [(some "x", .leaf 2)])
    ∧ kindAt (.node [(some "x", .leaf (2 : Int))]) [some "x"] = some (some 2)
    ∧ nsGet [("a", "v")] "a" = some "v"
    ∧ resolve (.node [] : RuleBranch Int) ["a"] [("a", "v")] = .ok none := by
  refine ⟨rfl, rfl, rfl, ?_, rfl, ?_⟩
  · exact collation_conflict_policy.1 ["a"] [([("a", "x")], 1), ([("a", "x")], 2)]
      [([some "x"], 1), ([some "x"], 2)] [some "x"] 2 (.node [(some "x", .leaf 2)])
      (by simp) rfl rfl rfl
  · exact collation_conflict_policy.2.2.2.2.1 "a" [] [("a", "v")] "v" rfl

theorem processRules_foldl {Raw : Type} (conv : Raw → Option (PyVal × List String))
    (features : List String) :
    ∀ (rms : List (RuleMapping Raw)) (acc : List Int × List (PyVal × List (String × String))),
      rms.foldl
        (fun acc rm =>
          if rm.context_features.any (fun cf => !(features.contains cf.1)) then
            (acc.1 ++ [rm.rule_id], acc.2)
          else
            match conv rm.value with
            | none => (acc.1 ++ [rm.rule_id], acc.2)
            | some vc => (acc.1, acc.2 ++ [(vc.1, rm.context_features)])) acc =
      (acc.1 ++ rejectedIds conv features rms, acc.2 ++ acceptedVals conv features rms) := by
  intro rms
  induction rms with
  | nil => intro acc; simp [rejectedIds, acceptedVals]
  | cons rm rest ih =>
    intro acc
    simp only [List.foldl_cons]
    cases hbad : rm.context_features.any (fun cf => !(features.contains cf.1)) with
    | true =>
      rw [if_pos rfl, ih]
      simp only [rejectedIds, acceptedVals, hbad]
      simp
    | false =>
      rw [if_neg Bool.false_ne_true]
      cases hc : conv rm.value with
      | none =>
        rw [ih]
        simp only [rejectedIds, acceptedVals, hbad, hc]
        simp
      | some vc =>
        rw [ih]
        simp only [rejectedIds, acceptedVals, hbad, hc]
        simp

theorem acceptedVals_swap {Raw : Type} (conv : Raw → Option (PyVal × List String))
    (features : List String) :
    ∀ rms, (acceptedVals conv features rms).map (fun vr => (vr.2, vr.1)) =
      acceptedRules conv features rms := by
  intro rms
  induction rms with
  | nil => rfl
  | cons rm rest ih =>
    cases hbad : rm.context_features.any (fun cf => !(features.contains cf.1)) with
    | true =>
      simp only [acceptedVals, acceptedRules, hbad]
      simp [ih]
    | false =>
      cases hc : conv rm.value with
      | none =>
        simp only [acceptedVals, acceptedRules, hbad, hc]
        simp [ih]
      | some vc =>
        simp only [acceptedVals, acceptedRules, hbad, hc]
        simp [ih]

theorem pathRules_isSome {T : Type} (keys : List String) :
    ∀ (rules : List (List (String × String) × T)),
      (∀ r ∈ rules, (rulePath keys r.1).isSome = true) →
      (pathRules keys rules).isSome = true := by
  intro rules
  induction rules with
  | nil => intro _; simp [pathRules]
  | cons r rest ih =>
    intro h
    simp only [pathRules]
    cases hp : rulePath keys r.1 with
    | none =>
      have := h r (List.mem_cons_self _ _)
      rw [hp] at this
      simp at this
    | some p =>
      cases hr : pathRules keys rest with
      | none =>
        have := ih fun x hx => h x (List.mem_cons_of_mem _ hx)
        rw [hr] at this
        simp at this
      | some tl => simp

theorem accepted_nil_features {Raw : Type} (conv : Raw → Option (PyVal × List String)) :
    ∀ (rms : List (RuleMapping Raw)),
      ∀ r ∈ acceptedRules conv [] rms, r.1 = ([] : List (String × String)) := by
  intro rms
  induction rms with
  | nil => intro r hr; simp [acceptedRules] at hr
  | cons rm rest ih =>
    intro r hr
    cases hbad : rm.context_features.any (fun cf => !(([] : List String).contains cf.1)) with
    | true =>
      simp only [acceptedRules, hbad, if_pos] at hr
      exact ih r (by simpa using hr)
    | false =>
      have hcf : rm.context_features = [] := by
        cases hcfs : rm.context_features with
        | nil => rfl
        | cons c cs =>
          rw [hcfs] at hbad
          simp [List.any_cons] at hbad
      cases hc : conv rm.value with
      | none =>
        simp only [acceptedRules, hbad, hc] at hr
        exact ih r (by simpa using hr)
      | some vc =>
        simp only [acceptedRules, hbad, hc] at hr
        simp only [Bool.false_eq_true, if_false] at hr
        rcases List.mem_cons.1 hr with heq | hmem
        · rw [heq, hcf]
        · exact ih r hmem

theorem collate_nil_features_ok {T : Type} (rules : List (List (String × String) × T))
    (h : ∀ r ∈ rules, r.1 = ([] : List (String × String))) :
    (collate_rules ([] : List String) rules).isSome = true := by
  match rules with
  | [] => rfl
  | [(conds, ret)] =>
    have h1 := h (conds, ret) (List.mem_cons_self _ _)
    simp only at h1
    simp [collate_rules, h1]
  | (c1, v1) :: (c2, v2) :: rest =>
    have h1 := h (c1, v1) (List.mem_cons_self _ _)
    have h2 := h (c2, v2) (List.mem_cons_of_mem _ (List.mem_cons_self _ _))
    simp only at h1 h2
    simp [collate_rules, h1, h2]

theorem update_one_spec {Raw : Type} (conv : Raw → Option (PyVal × List String))
    (s : Setting) (res : SettingResults Raw)
    (hwf : acceptedWf conv s.configurable_features res.rules) :
    update_settings_one conv s res =
      .ok ({ s with
               server_default_value :=
                 (match conv res.default_value with
                  | none => s.server_default_value
                  | some vc => vc.1),
               last_ruleset := collate_rules s.configurable_features
                 (acceptedRules conv s.configurable_features res.rules) },
           rejectedIds conv s.configurable_features res.rules) := by
  have hcol : (collate_rules s.configurable_features
      (acceptedRules conv s.configurable_features res.rules)).isSome = true := by
    cases hfe : s.configurable_features with
    | nil =>
      apply collate_nil_features_ok
      intro r hr
      exact accepted_nil_features conv res.rules r hr
    | cons k ks =>
      rw [hfe] at hwf
      simp only [collate_rules]
      have hps := pathRules_isSome (k :: ks)
        (acceptedRules conv (k :: ks) res.rules) hwf
      cases hp : pathRules (k :: ks) (acceptedRules conv (k :: ks) res.rules) with
      | none => rw [hp] at hps; simp at hps
      | some prs => simp
  have hproc : processRules conv s.configurable_features res.rules =
      (rejectedIds conv s.configurable_features res.rules,
       acceptedVals conv s.configurable_features res.rules) := by
    have h := processRules_foldl conv s.configurable_features res.rules ([], [])
    simpa [processRules] using h
  obtain ⟨root, hroot⟩ : ∃ root, collate_rules s.configurable_features
      (acceptedRules conv s.configurable_features res.rules) = some root :=
    Option.isSome_iff_exists.1 hcol
  simp only [update_settings_one, hproc, acceptedVals_swap, hroot]

/-- C9.  Per-rule fault isolation: every returned rule naming an
unrecognized dimension or failing value conversion is dropped individually,
while all remaining rules are converted, collated and installed together
with the converted default; such bad rules and an unconvertible default
never abort the setting's update (the result is a normal return, with the
override left unchanged on a default conversion failure), nor the cycle over
all returned settings. -/
theorem per_rule_fault_isolation {Raw : Type} (conv : Raw → Option (PyVal × List String))
    (s : Setting) (res : SettingResults Raw)
    (hwf : acceptedWf conv s.configurable_features res.rules) :
    update_settings_one conv s res =
      .ok ({ s with
               server_default_value :=
                 (match conv res.default_value with
                  | none => s.server_default_value
                  | some vc => vc.1),
               last_ruleset := collate_rules s.configurable_features
                 (acceptedRules conv s.configurable_features res.rules) },
           rejectedIds conv s.configurable_features res.rules)
    ∧ (∀ pairs : List (Setting × SettingResults Raw),
        (∀ pa ∈ pairs, acceptedWf conv pa.1.configurable_features pa.2.rules) →
        exceptOk (update_settings_from_query conv pairs) = true) := by
  constructor
  · exact update_one_spec conv s res hwf
  · intro pairs
    induction pairs with
    | nil => intro _; rfl
    | cons pa rest ih =>
      intro hall
      have hone := update_one_spec conv pa.1 pa.2 (hall pa (List.mem_cons_self _ _))
      have ihr := ih fun pa2 h2 => hall pa2 (List.mem_cons_of_mem _ h2)
      simp only [update_settings_from_query] at ihr ⊢
      rw [List.mapM_cons, hone]
      cases hrest : List.mapM (fun p => update_settings_one conv p.1 p.2) rest with
      | error e => rw [hrest] at ihr; simp [exceptOk] at ihr
      | ok l => rfl

/-- Witness for C9: of three returned rules, the unrecognized-feature rule
and the unconvertible rule are rejected, the good rule is collated and
installed, and the converted default is stored. -/
theorem per_rule_fault_isolation_witness :
    acceptedRules c9conv ["a"] c9res.rules = [([("a", "w")], .int 9)]
    ∧ rejectedIds c9conv ["a"] c9res.rules = [1, 2]
    ∧ update_settings_one c9conv c9setting c9res =
        .ok ({ c9setting with
                 server_default_value := .int 4,
                 last_ruleset := some (.node [(some "w", .leaf (.int 9))]) }, [1, 2]) := by
  refine ⟨rfl, rfl, ?_⟩
  have h := (per_rule_fault_isolation c9conv c9setting c9res
    (by unfold acceptedWf; decide)).1
  exact h

end Heksher
